import Mathlib

/-!
Shallow embedding of the Ethernet-Parameters repository (IPv4Address and
IPv6Address value types) and proofs about its parsing, formatting and
binary-conversion routines.

Strings are modelled as `List Char`, byte buffers as `List Nat` with every
element < 256, machine integers as `Nat`/`Int` with explicit reductions
(`% 256`, `% 65536`) where the C++ code uses `uint8_t`/`uint16_t`.
The host is the usual LP64 little-endian target the repository is built on:
`sizeof(const uint8_t *) = 8`, and `memcpy` between a `uint16_t` and two
bytes pairs the low byte first.
-/

namespace EthernetParameter

/-- Error taxonomy of the repository: every failure is a thrown
`std::invalid_argument` / `std::out_of_range` with one of the messages
declared in the headers; we record which message. -/
inductive IPError where
  | nullPtr        -- NULL_PTR_EXCEPTION_MESSAGE / NULL_PTR_ENCOUNTERED
  | invalidSize    -- INVALID_BINARY_CONTENT_SIZE / INVALID_BINARY_ADDRESS_SIZE
  | emptyString    -- EMPTY_STRING_EXCEPTION_MESSAGE / EMPTY_STRING
  | invalidAddress -- INVALID_IPV6_ADDRESS_EXCEPTION_MESSAGE
  | emptyVector    -- EMPTY_BINARY_VECTOR
  | outOfRange     -- OCTET_OUT_OF_RANGE
  deriving DecidableEq

/-- `IPv6Address::IPV6_ADDRESS_BYTE_LENGTH`. -/
def IPV6_ADDRESS_BYTE_LENGTH : Nat := 16

/-- `IPv6Address::IPV6_ADDRESS_GROUPS_NUMBER`. -/
def IPV6_ADDRESS_GROUPS_NUMBER : Nat := 8

/-- `IPv4Address::IP_ADDRESS_OCTETS` (number of octets of an IPv4 address). -/
def IP_ADDRESS_OCTETS : Nat := 4

/-- `IPv4Address::IP_ADDRESS_MAX_LENGTH`: documented as "Total length (in
bytes) of IPv4 address including dots", i.e. the length of the longest
dotted-decimal string `255.255.255.255`. -/
def IP_ADDRESS_MAX_LENGTH : Nat := 15

/-- `sizeof(const uint8_t *)` on the LP64 host. -/
def SIZEOF_UINT8_PTR : Nat := 8

/-- `sizeof(uint8_t)`. -/
def SIZEOF_UINT8 : Nat := 1

/-! ### Generic separator split / join on character lists -/

/-- Split a character list at every occurrence of `sep` (the unique
decomposition of a string into separator-delimited fields; an empty list
yields one empty field, `n` separators yield `n + 1` fields). -/
def splitSep (sep : Char) : List Char → List (List Char)
  | [] => [[]]
  | c :: rest =>
    if c = sep then [] :: splitSep sep rest
    else
      match splitSep sep rest with
      | [] => [[c]]
      | g :: gs => (c :: g) :: gs

/-- Join fields with a separator character (inverse of `splitSep`). -/
def joinSep (sep : Char) : List (List Char) → List Char
  | [] => []
  | [g] => g
  | g :: gs => g ++ sep :: joinSep sep gs

/-! ### IPv6: hex digits and `IPv6Address::ParseIpV6` -/

/-- Value of one hexadecimal digit, mirroring the three character-range
tests in `ParseIpV6` (`0-9`, `a-f`, `A-F`); `none` on any other character
(the parser throws there). -/
def hexVal? (c : Char) : Option Nat :=
  if '0' ≤ c ∧ c ≤ '9' then some (c.toNat - ('0').toNat)
  else if 'a' ≤ c ∧ c ≤ 'f' then some (c.toNat - ('a').toNat + 10)
  else if 'A' ≤ c ∧ c ≤ 'F' then some (c.toNat - ('A').toNat + 10)
  else none

/-- Whether `ParseIpV6` accepts `c` as a hex digit. -/
def isHexDigitChar (c : Char) : Bool := (hexVal? c).isSome

/-- Inner loop of `ParseIpV6`: consume characters until `\0` or `:`,
accumulating `value` (a `uint16_t`, hence the `% 65536` per shift-and-or
step) and counting `digits`.  Returns `none` when a non-hex character is
hit (the C++ code throws), otherwise the final `value`, the number of
characters consumed, and the unconsumed rest (which is empty or starts
with a colon). -/
def scanGroup : List Char → Nat → Nat → Option (Nat × Nat × List Char)
  | [], value, digits => some (value, digits, [])
  | c :: rest, value, digits =>
    if c = ':' then some (value, digits, c :: rest)
    else
      match hexVal? c with
      | some d => scanGroup rest ((value * 16 + d) % 65536) (digits + 1)
      | none => none

/-- Outer loop of `ParseIpV6` (`while (groupIndex < 8)`), indexed by the
remaining iteration budget.  After a group is scanned, the code throws when
`digits == 0 || digits > 4`; `digits` is a `uint8_t`, so the comparison
sees the character count modulo 256.  On `\0` the loop breaks; otherwise
the colon is skipped and the loop continues.  Returns the parsed groups and
the input left over when the budget is exhausted. -/
def parseGroups : Nat → List Char → Option (List Nat × List Char)
  | 0, token => some ([], token)
  | n + 1, token =>
    match scanGroup token 0 0 with
    | none => none
    | some (value, digits, rest) =>
      if digits % 256 = 0 ∨ 4 < digits % 256 then none
      else
        match rest with
        | [] => some ([value], [])
        | _ :: rest2 =>
          match parseGroups n rest2 with
          | none => none
          | some (vs, fin) => some (value :: vs, fin)

/-- `IPv6Address::ParseIpV6`: run the loop with budget 8, then apply the
final check `groupIndex != 8 || *token != '\0'` (throw unless exactly 8
groups were stored and the input is exhausted). -/
def parseIpV6 (s : List Char) : Option (List Nat) :=
  match parseGroups IPV6_ADDRESS_GROUPS_NUMBER s with
  | none => none
  | some (vs, fin) =>
    if vs.length = IPV6_ADDRESS_GROUPS_NUMBER ∧ fin = [] then some vs else none

/-! ### Lemmas about `splitSep` / `joinSep` -/

theorem splitSep_ne_nil (sep : Char) (l : List Char) : splitSep sep l ≠ [] := by
  induction l with
  | nil => simp [splitSep]
  | cons c rest ih =>
    simp only [splitSep]
    by_cases hc : c = sep
    · simp [hc]
    · simp only [if_neg hc]
      cases h : splitSep sep rest with
      | nil => simp
      | cons g gs => simp

theorem dropWhile_sep_cases (sep : Char) (l : List Char) :
    l.dropWhile (fun c => c != sep) = [] ∨
      ∃ r, l.dropWhile (fun c => c != sep) = sep :: r := by
  induction l with
  | nil => exact Or.inl rfl
  | cons c rest ih =>
    by_cases hc : c = sep
    · exact Or.inr ⟨rest, by simp [List.dropWhile_cons, hc]⟩
    · simpa [List.dropWhile_cons, hc] using ih

theorem takeWhile_sep_eq_self (sep : Char) (l : List Char)
    (h : l.dropWhile (fun c => c != sep) = []) :
    l.takeWhile (fun c => c != sep) = l := by
  conv_rhs => rw [← List.takeWhile_append_dropWhile (p := fun c => c != sep) (l := l)]
  simp [h]

theorem splitSep_of_dropWhile_nil (sep : Char) (l : List Char)
    (h : l.dropWhile (fun c => c != sep) = []) : splitSep sep l = [l] := by
  induction l with
  | nil => rfl
  | cons c rest ih =>
    by_cases hc : c = sep
    · simp [List.dropWhile_cons, hc] at h
    · have h2 : rest.dropWhile (fun c => c != sep) = [] := by
        simpa [List.dropWhile_cons, hc] using h
      simp [splitSep, hc, ih h2]

theorem splitSep_of_dropWhile_cons (sep : Char) (l r : List Char)
    (h : l.dropWhile (fun c => c != sep) = sep :: r) :
    splitSep sep l = l.takeWhile (fun c => c != sep) :: splitSep sep r := by
  induction l with
  | nil => simp [List.dropWhile] at h
  | cons c rest ih =>
    by_cases hc : c = sep
    · have hr : rest = r := by simpa [List.dropWhile_cons, hc] using h
      subst hr
      simp [splitSep, hc, List.takeWhile_cons, hc]
    · have h2 : rest.dropWhile (fun c => c != sep) = sep :: r := by
        simpa [List.dropWhile_cons, hc] using h
      simp [splitSep, hc, ih h2, List.takeWhile_cons]

theorem joinSep_splitSep (sep : Char) (l : List Char) :
    joinSep sep (splitSep sep l) = l := by
  induction l with
  | nil => rfl
  | cons c rest ih =>
    by_cases hc : c = sep
    · cases h : splitSep sep rest with
      | nil => exact absurd h (splitSep_ne_nil sep rest)
      | cons g gs =>
        have ih2 : joinSep sep (g :: gs) = rest := h ▸ ih
        simp [splitSep, hc, h, joinSep, ih2]
    · cases h : splitSep sep rest with
      | nil => exact absurd h (splitSep_ne_nil sep rest)
      | cons g gs =>
        have ih2 : joinSep sep (g :: gs) = rest := h ▸ ih
        cases gs with
        | nil =>
          simp only [joinSep] at ih2
          simp [splitSep, hc, h, joinSep, ih2]
        | cons g2 gs2 =>
          simp only [joinSep] at ih2
          simp only [splitSep, if_neg hc, h, joinSep, List.cons_append]
          rw [ih2]

theorem splitSep_append_sep (sep : Char) (l : List Char) :
    splitSep sep (l ++ [sep]) = splitSep sep l ++ [[]] := by
  induction l with
  | nil => simp [splitSep]
  | cons c rest ih =>
    by_cases hc : c = sep
    · simp [splitSep, hc, ih]
    · cases h : splitSep sep rest with
      | nil => exact absurd h (splitSep_ne_nil sep rest)
      | cons g gs => simp [splitSep, hc, ih, h]

theorem dropWhile_sepFree_append (sep : Char) (g t : List Char)
    (hg : ∀ c ∈ g, c ≠ sep) :
    (g ++ sep :: t).dropWhile (fun c => c != sep) = sep :: t := by
  induction g with
  | nil => simp [List.dropWhile_cons]
  | cons c g2 ih =>
    have hc : c ≠ sep := hg c (List.mem_cons_self c g2)
    have h2 : ∀ c2 ∈ g2, c2 ≠ sep := fun c2 hm => hg c2 (List.mem_cons_of_mem c hm)
    simp [List.dropWhile_cons, hc, ih h2]

theorem takeWhile_sepFree_append (sep : Char) (g t : List Char)
    (hg : ∀ c ∈ g, c ≠ sep) :
    (g ++ sep :: t).takeWhile (fun c => c != sep) = g := by
  induction g with
  | nil => simp [List.takeWhile_cons]
  | cons c g2 ih =>
    have hc : c ≠ sep := hg c (List.mem_cons_self c g2)
    have h2 : ∀ c2 ∈ g2, c2 ≠ sep := fun c2 hm => hg c2 (List.mem_cons_of_mem c hm)
    simp [List.takeWhile_cons, hc, ih h2]

theorem splitSep_joinSep (sep : Char) (ps : List (List Char)) (hne : ps ≠ [])
    (hs : ∀ p ∈ ps, ∀ c ∈ p, c ≠ sep) :
    splitSep sep (joinSep sep ps) = ps := by
  induction ps with
  | nil => exact absurd rfl hne
  | cons g gs ih =>
    cases gs with
    | nil =>
      have hg : ∀ c ∈ g, c ≠ sep := hs g (List.mem_cons_self g [])
      have hdrop : g.dropWhile (fun c => c != sep) = [] := by
        rw [List.dropWhile_eq_nil_iff]
        intro c hc
        simpa using hg c hc
      simpa [joinSep] using splitSep_of_dropWhile_nil sep g hdrop
    | cons g2 gs2 =>
      have hg : ∀ c ∈ g, c ≠ sep := hs g (List.mem_cons_self g (g2 :: gs2))
      have hs2 : ∀ p ∈ g2 :: gs2, ∀ c ∈ p, c ≠ sep :=
        fun p hp => hs p (List.mem_cons_of_mem g hp)
      have hj : joinSep sep (g :: g2 :: gs2) = g ++ sep :: joinSep sep (g2 :: gs2) := rfl
      rw [hj, splitSep_of_dropWhile_cons sep _ _
            (dropWhile_sepFree_append sep g _ hg),
          takeWhile_sepFree_append sep g _ hg,
          ih (by simp) hs2]

theorem joinSep_append_nil_group (sep : Char) (ps : List (List Char)) (hne : ps ≠ []) :
    joinSep sep (ps ++ [[]]) = joinSep sep ps ++ [sep] := by
  induction ps with
  | nil => exact absurd rfl hne
  | cons g gs ih =>
    cases gs with
    | nil => simp [joinSep]
    | cons g2 gs2 =>
      have h2 := ih (by simp)
      have hj : joinSep sep ((g :: g2 :: gs2) ++ [[]])
          = g ++ sep :: joinSep sep ((g2 :: gs2) ++ [[]]) := rfl
      rw [hj, h2]
      simp [joinSep]

/-! ### Characterisation of `scanGroup` -/

/-- Value accumulated by the inner loop of `ParseIpV6` over a run of hex
digits, starting from `v`, with the `uint16_t` wrap per shift-and-or
step. -/
def foldVal (v : Nat) (g : List Char) : Nat :=
  g.foldl (fun a c => (a * 16 + (hexVal? c).getD 0) % 65536) v

theorem scanGroup_of_all_hex (l : List Char) (v d : Nat)
    (h : ∀ c ∈ l.takeWhile (fun c => c != ':'), isHexDigitChar c = true) :
    scanGroup l v d =
      some (foldVal v (l.takeWhile (fun c => c != ':')),
        d + (l.takeWhile (fun c => c != ':')).length,
        l.dropWhile (fun c => c != ':')) := by
  induction l generalizing v d with
  | nil => simp [scanGroup, foldVal]
  | cons c rest ih =>
    by_cases hc : c = ':'
    · subst hc
      simp [scanGroup, List.takeWhile_cons, List.dropWhile_cons, foldVal]
    · have hcs : (c != ':') = true := by simpa using hc
      have hhex : isHexDigitChar c = true := by
        refine h c ?_
        simp [List.takeWhile_cons, hcs]
      obtain ⟨dd, hdd⟩ := Option.isSome_iff_exists.mp
        (by simpa [isHexDigitChar] using hhex)
      have h2 : ∀ x ∈ rest.takeWhile (fun c => c != ':'), isHexDigitChar x = true := by
        intro x hx
        refine h x ?_
        simp [List.takeWhile_cons, hcs]
        exact Or.inr hx
      have step : scanGroup (c :: rest) v d
          = scanGroup rest ((v * 16 + dd) % 65536) (d + 1) := by
        simp [scanGroup, hc, hdd]
      rw [step, ih _ _ h2]
      simp only [List.takeWhile_cons, if_pos hcs, List.dropWhile_cons, hcs, if_true,
        List.length_cons, foldVal, List.foldl_cons, hdd, Option.getD_some, Option.some.injEq,
        Prod.mk.injEq]
      exact ⟨trivial, by omega, trivial⟩

theorem scanGroup_of_bad_char (l : List Char) (v d : Nat)
    (h : ¬ ∀ c ∈ l.takeWhile (fun c => c != ':'), isHexDigitChar c = true) :
    scanGroup l v d = none := by
  induction l generalizing v d with
  | nil => exact absurd (by simp) h
  | cons c rest ih =>
    by_cases hc : c = ':'
    · subst hc
      exact absurd (by simp [List.takeWhile_cons]) h
    · have hcs : (c != ':') = true := by simpa using hc
      by_cases hhex : isHexDigitChar c = true
      · obtain ⟨dd, hdd⟩ := Option.isSome_iff_exists.mp
          (by simpa [isHexDigitChar] using hhex)
        have h2 : ¬ ∀ x ∈ rest.takeWhile (fun c => c != ':'), isHexDigitChar x = true := by
          intro hall
          apply h
          intro x hx
          rw [List.takeWhile_cons, if_pos hcs] at hx
          rcases List.mem_cons.mp hx with rfl | hx2
          · exact hhex
          · exact hall x hx2
        simp [scanGroup, hc, hdd, ih _ _ h2]
      · have hnone : hexVal? c = none := by
          cases hv : hexVal? c with
          | none => rfl
          | some dd => exact absurd (by simp [isHexDigitChar, hv]) hhex
        simp [scanGroup, hc, hnone]

/-! ### Group predicates and the shape of accepted IPv6 strings -/

/-- A colon-free field accepted by one iteration of the outer loop of
`ParseIpV6`: every character is a hex digit and the `uint8_t` digit counter
ends in 1..4.  Besides 1-4 digit groups this also accepts, e.g., a
257-digit group (the 8-bit counter having wrapped around). -/
def GoodGroup (g : List Char) : Prop :=
  (∀ c ∈ g, isHexDigitChar c = true) ∧ 1 ≤ g.length % 256 ∧ g.length % 256 ≤ 4

instance (g : List Char) : Decidable (GoodGroup g) := by
  unfold GoodGroup; infer_instance

/-- A group exactly as claim C4 words it: 1 to 4 hexadecimal digits. -/
def CleanGroup (g : List Char) : Prop :=
  (∀ c ∈ g, isHexDigitChar c = true) ∧ 1 ≤ g.length ∧ g.length ≤ 4

instance (g : List Char) : Decidable (CleanGroup g) := by
  unfold CleanGroup; infer_instance

theorem hex_ne_colon {c : Char} (h : isHexDigitChar c = true) : c ≠ ':' := by
  intro hcc
  subst hcc
  have : isHexDigitChar ':' = false := by decide
  rw [this] at h
  exact Bool.false_ne_true h

/-- Operational shape of inputs on which `parseGroups n` succeeds with `n`
groups and no leftover: either the input splits into exactly `n` accepted
fields, or into `n + 1` fields of which the first `n` are accepted and the
last is empty (a single trailing separator). -/
def ShapeN (n : Nat) (l : List Char) : Prop :=
  ((splitSep ':' l).length = n ∧ ∀ g ∈ splitSep ':' l, GoodGroup g) ∨
  ((splitSep ':' l).length = n + 1 ∧ (∀ g ∈ (splitSep ':' l).take n, GoodGroup g) ∧
    (splitSep ':' l).getLast? = some [])

/-- Success of the outer loop with budget `n`: all `n` groups parsed and
the final check's token position exhausted. -/
def POk (n : Nat) (l : List Char) : Prop :=
  match parseGroups n l with
  | some (vs, fin) => vs.length = n ∧ fin = []
  | none => False

theorem not_shape_of_bad_head (n : Nat) (pre : List Char) (l : List Char)
    (tail : List (List Char))
    (hsplit : splitSep ':' l = pre :: tail)
    (hbad : ¬ GoodGroup pre) :
    ¬ ShapeN (n + 1) l := by
  unfold ShapeN
  rw [hsplit]
  rintro (⟨hlen, hall⟩ | ⟨hlen, hall, hlast⟩)
  · exact hbad (hall pre (List.mem_cons_self _ _))
  · refine hbad (hall pre ?_)
    rw [List.take_succ_cons]
    exact List.mem_cons_self _ _

theorem shape_single (n : Nat) (l : List Char)
    (hsplit : splitSep ':' l = [l])
    (hgood : GoodGroup l) :
    ShapeN (n + 1) l ↔ n = 0 := by
  unfold ShapeN
  rw [hsplit]
  constructor
  · rintro (⟨hlen, h2⟩ | ⟨hlen, h2, h3⟩)
    · simp only [List.length_cons, List.length_nil] at hlen
      omega
    · simp only [List.length_cons, List.length_nil] at hlen
      omega
  · rintro rfl
    exact Or.inl ⟨by simp, by simpa [List.forall_mem_cons] using hgood⟩

theorem shape_cons (n : Nat) (pre : List Char) (l r : List Char)
    (hsplit : splitSep ':' l = pre :: splitSep ':' r)
    (hgood : GoodGroup pre) :
    ShapeN (n + 1) l ↔ ShapeN n r := by
  obtain ⟨s1, S, hS⟩ : ∃ s1 S, splitSep ':' r = s1 :: S := by
    cases h : splitSep ':' r with
    | nil => exact absurd h (splitSep_ne_nil ':' r)
    | cons a b => exact ⟨a, b, rfl⟩
  unfold ShapeN
  rw [hsplit, hS]
  simp only [List.length_cons, List.take_succ_cons, List.getLast?_cons_cons,
    List.forall_mem_cons, hgood, true_and, Nat.add_left_inj]

theorem parseGroups_succ_eq (n : Nat) (l : List Char) :
    parseGroups (n + 1) l =
      match scanGroup l 0 0 with
      | none => none
      | some (value, digits, rest) =>
        if digits % 256 = 0 ∨ 4 < digits % 256 then none
        else
          match rest with
          | [] => some ([value], [])
          | _ :: rest2 =>
            match parseGroups n rest2 with
            | none => none
            | some (vs, fin) => some (value :: vs, fin) := rfl

theorem pok_of_eq_none {n : Nat} {l : List Char} (h : parseGroups n l = none) :
    ¬ POk n l := by
  unfold POk
  rw [h]
  exact fun h2 => h2

theorem pok_iff_of_eq_some {n : Nat} {l : List Char} {vs : List Nat} {fin : List Char}
    (h : parseGroups n l = some (vs, fin)) :
    POk n l ↔ (vs.length = n ∧ fin = []) := by
  unfold POk
  rw [h]

theorem pok_iff_shape : ∀ (n : Nat) (l : List Char), POk n l ↔ ShapeN n l := by
  intro n
  induction n with
  | zero =>
    intro l
    have hpok : POk 0 l ↔ l = [] := by simp [POk, parseGroups]
    rw [hpok]
    constructor
    · rintro rfl
      exact Or.inr ⟨by simp [splitSep], by simp, by simp [splitSep]⟩
    · rintro (⟨hlen, h2⟩ | ⟨hlen, h2, h3⟩)
      · exact absurd (List.length_eq_zero.mp hlen) (splitSep_ne_nil ':' l)
      · obtain ⟨g, hg⟩ := List.length_eq_one.mp hlen
        have hgl : g = [] := by
          rw [hg] at h3
          simpa using h3
        have hjoin := joinSep_splitSep ':' l
        rw [hg, hgl] at hjoin
        simpa [joinSep] using hjoin.symm
  | succ n ih =>
    intro l
    rcases dropWhile_sep_cases ':' l with hN | ⟨r, hC⟩
    · -- the input contains no colon: the whole of it is the first group
      have hsplit : splitSep ':' l = [l] := splitSep_of_dropWhile_nil ':' l hN
      have htake : l.takeWhile (fun c => c != ':') = l := takeWhile_sep_eq_self ':' l hN
      by_cases hAll : ∀ c ∈ l.takeWhile (fun c => c != ':'), isHexDigitChar c = true
      · have hscan := scanGroup_of_all_hex l 0 0 hAll
        rw [htake, hN, Nat.zero_add] at hscan
        by_cases hlen : l.length % 256 = 0 ∨ 4 < l.length % 256
        · have hpg : parseGroups (n + 1) l = none := by
            simp only [parseGroups_succ_eq, hscan]
            rw [if_pos hlen]
          have hbad : ¬ GoodGroup l := by
            rintro ⟨h1, h2, h3⟩
            omega
          exact iff_of_false (pok_of_eq_none hpg) (not_shape_of_bad_head n l l [] hsplit hbad)
        · have hpg : parseGroups (n + 1) l = some ([foldVal 0 l], []) := by
            simp only [parseGroups_succ_eq, hscan]
            rw [if_neg hlen]
          have hgood : GoodGroup l := ⟨by rw [← htake]; exact hAll, by omega, by omega⟩
          rw [pok_iff_of_eq_some hpg, shape_single n l hsplit hgood]
          constructor
          · rintro ⟨h1, h2⟩
            simp only [List.length_cons, List.length_nil] at h1
            omega
          · rintro rfl
            exact ⟨by simp, rfl⟩
      · have hscan := scanGroup_of_bad_char l 0 0 hAll
        have hpg : parseGroups (n + 1) l = none := by
          simp only [parseGroups_succ_eq, hscan]
        have hbad : ¬ GoodGroup l := by
          rintro ⟨h1, h2, h3⟩
          exact hAll (by rw [htake]; exact h1)
        exact iff_of_false (pok_of_eq_none hpg) (not_shape_of_bad_head n l l [] hsplit hbad)
    · -- the input has a colon: first group, then the rest after the colon
      have hsplit : splitSep ':' l = l.takeWhile (fun c => c != ':') :: splitSep ':' r :=
        splitSep_of_dropWhile_cons ':' l r hC
      by_cases hAll : ∀ c ∈ l.takeWhile (fun c => c != ':'), isHexDigitChar c = true
      · have hscan := scanGroup_of_all_hex l 0 0 hAll
        rw [hC, Nat.zero_add] at hscan
        by_cases hlen : (l.takeWhile (fun c => c != ':')).length % 256 = 0 ∨
            4 < (l.takeWhile (fun c => c != ':')).length % 256
        · have hpg : parseGroups (n + 1) l = none := by
            simp only [parseGroups_succ_eq, hscan]
            rw [if_pos hlen]
          have hbad : ¬ GoodGroup (l.takeWhile (fun c => c != ':')) := by
            rintro ⟨h1, h2, h3⟩
            omega
          exact iff_of_false (pok_of_eq_none hpg) (not_shape_of_bad_head n _ l _ hsplit hbad)
        · have hgood : GoodGroup (l.takeWhile (fun c => c != ':')) :=
            ⟨hAll, by omega, by omega⟩
          have hstep : POk (n + 1) l ↔ POk n r := by
            cases hrec : parseGroups n r with
            | none =>
              have hpg : parseGroups (n + 1) l = none := by
                simp only [parseGroups_succ_eq, hscan]
                rw [if_neg hlen]
                simp only [hrec]
              exact iff_of_false (pok_of_eq_none hpg) (pok_of_eq_none hrec)
            | some p =>
              obtain ⟨vs, fin⟩ := p
              have hpg : parseGroups (n + 1) l
                  = some (foldVal 0 (l.takeWhile (fun c => c != ':')) :: vs, fin) := by
                simp only [parseGroups_succ_eq, hscan]
                rw [if_neg hlen]
                simp only [hrec]
              rw [pok_iff_of_eq_some hpg, pok_iff_of_eq_some hrec]
              simp only [List.length_cons]
              constructor
              · rintro ⟨h1, h2⟩
                exact ⟨by omega, h2⟩
              · rintro ⟨h1, h2⟩
                exact ⟨by omega, h2⟩
          rw [hstep, ih r, shape_cons n _ l r hsplit hgood]
      · have hscan := scanGroup_of_bad_char l 0 0 hAll
        have hpg : parseGroups (n + 1) l = none := by
          simp only [parseGroups_succ_eq, hscan]
        have hbad : ¬ GoodGroup (l.takeWhile (fun c => c != ':')) := fun hg => hAll hg.1
        exact iff_of_false (pok_of_eq_none hpg) (not_shape_of_bad_head n _ l _ hsplit hbad)

theorem parseIpV6_isSome_iff_pok (s : List Char) :
    (parseIpV6 s).isSome = true ↔ POk 8 s := by
  unfold parseIpV6 POk IPV6_ADDRESS_GROUPS_NUMBER
  cases h : parseGroups 8 s with
  | none => simp
  | some p =>
    obtain ⟨vs, fin⟩ := p
    by_cases hc : vs.length = 8 ∧ fin = []
    · simp [hc]
    · simp [hc]

/-! ### Text-level well-formedness predicates (spec side) -/

/-- The well-formedness of an IPv6 string exactly as claim C4 states it:
exactly 8 colon-separated groups of 1 to 4 hexadecimal digits, with no
trailing characters. -/
def Ipv6TextC4 (l : List Char) : Prop :=
  ∃ gs : List (List Char), gs.length = 8 ∧ (∀ g ∈ gs, CleanGroup g) ∧ l = joinSep ':' gs

/-- The amended well-formedness: 8 colon-separated groups whose characters
are hex digits and whose digit count taken modulo 256 lies in 1..4 (the
parser's `uint8_t` counter), optionally followed by one single trailing
colon. -/
def Ipv6TextAmended (l : List Char) : Prop :=
  ∃ gs : List (List Char), gs.length = 8 ∧ (∀ g ∈ gs, GoodGroup g) ∧
    (l = joinSep ':' gs ∨ l = joinSep ':' gs ++ [':'])

theorem eq_dropLast_append_of_getLast? {α : Type} {xs : List α} {a : α}
    (h : xs.getLast? = some a) : xs = xs.dropLast ++ [a] := by
  have hne : xs ≠ [] := by rintro rfl; simp at h
  have h2 := List.getLast?_eq_getLast xs hne
  rw [h2, Option.some.injEq] at h
  have h3 := List.dropLast_append_getLast hne
  exact (h ▸ h3).symm

theorem ipv6TextC4_iff (l : List Char) :
    Ipv6TextC4 l ↔ ((splitSep ':' l).length = 8 ∧ ∀ g ∈ splitSep ':' l, CleanGroup g) := by
  constructor
  · rintro ⟨gs, hlen, hgood, rfl⟩
    have hnosep : ∀ p ∈ gs, ∀ c ∈ p, c ≠ ':' :=
      fun p hp c hcp => hex_ne_colon ((hgood p hp).1 c hcp)
    rw [splitSep_joinSep ':' gs (by rintro rfl; simp at hlen) hnosep]
    exact ⟨hlen, hgood⟩
  · rintro ⟨hlen, hgood⟩
    exact ⟨splitSep ':' l, hlen, hgood, (joinSep_splitSep ':' l).symm⟩

theorem shape8_iff_amended (l : List Char) : ShapeN 8 l ↔ Ipv6TextAmended l := by
  constructor
  · rintro (⟨hlen, hgood⟩ | ⟨hlen, hgood, hlast⟩)
    · exact ⟨splitSep ':' l, hlen, hgood, Or.inl (joinSep_splitSep ':' l).symm⟩
    · refine ⟨(splitSep ':' l).take 8, ?_, hgood, Or.inr ?_⟩
      · rw [List.length_take, hlen]
        omega
      · have hsp9 : splitSep ':' l = (splitSep ':' l).take 8 ++ [[]] := by
          have hd := eq_dropLast_append_of_getLast? hlast
          rwa [List.dropLast_eq_take, hlen] at hd
        have htne : (splitSep ':' l).take 8 ≠ [] := by
          intro he
          rw [he] at hsp9
          have := congrArg List.length hsp9
          rw [hlen] at this
          simp at this
        have hjoin := joinSep_splitSep ':' l
        rw [hsp9, joinSep_append_nil_group ':' _ htne] at hjoin
        exact hjoin.symm
  · rintro ⟨gs, hlen, hgood, hl | hl⟩ <;> subst hl
    · left
      have hnosep : ∀ p ∈ gs, ∀ c ∈ p, c ≠ ':' :=
        fun p hp c hcp => hex_ne_colon ((hgood p hp).1 c hcp)
      rw [splitSep_joinSep ':' gs (by rintro rfl; simp at hlen) hnosep]
      exact ⟨hlen, hgood⟩
    · right
      have hnosep : ∀ p ∈ gs, ∀ c ∈ p, c ≠ ':' :=
        fun p hp c hcp => hex_ne_colon ((hgood p hp).1 c hcp)
      have hsp : splitSep ':' (joinSep ':' gs ++ [':']) = gs ++ [[]] := by
        rw [splitSep_append_sep, splitSep_joinSep ':' gs (by rintro rfl; simp at hlen) hnosep]
      rw [hsp]
      refine ⟨by simp [hlen], ?_, by simp⟩
      rw [← hlen, List.take_left]
      exact hgood

/-- The string `1:2:3:4:5:6:7:8:` — eight one-digit groups followed by a
single trailing colon. -/
def c4FailingInput : List Char :=
  ['1', ':', '2', ':', '3', ':', '4', ':', '5', ':', '6', ':', '7', ':', '8', ':']

/-- C4 counterexample: the claim states that leftover input after the 8th
group causes an error, but `ParseIpV6` accepts `1:2:3:4:5:6:7:8:` (it
skips the colon after the 8th group and then finds the terminator), even
though that string is not 8 colon-separated groups with no trailing
characters. -/
theorem ipv6_parse_trailing_colon_counterexample :
    parseIpV6 c4FailingInput = some [1, 2, 3, 4, 5, 6, 7, 8] ∧
      ¬ Ipv6TextC4 c4FailingInput := by
  constructor
  · rfl
  · intro h
    have h2 := (ipv6TextC4_iff c4FailingInput).mp h
    revert h2
    decide

/-- C4 (amended): for every input string, `ParseIpV6` succeeds iff the
string consists of exactly 8 colon-separated groups, every group character
a hex digit (case-insensitive) and every group's digit count congruent to
1..4 modulo 256 (the digit counter is an 8-bit variable), optionally
followed by one single trailing colon. -/
theorem ipv6_parse_amended_iff (s : List Char) :
    (parseIpV6 s).isSome = true ↔ Ipv6TextAmended s := by
  rw [parseIpV6_isSome_iff_pok, pok_iff_shape 8 s]
  exact shape8_iff_amended s

/-! ### `IPv6Address::ToString` -/

/-- One group as emitted by `ss << std::hex << std::setw(4) <<
std::setfill('0')`: a `uint16_t` value comes out as exactly 4 zero-padded
hex digits, lowercase (no `std::uppercase` is set). -/
def hex4 (g : Nat) : List Char :=
  [Nat.digitChar (g / 4096 % 16), Nat.digitChar (g / 256 % 16),
    Nat.digitChar (g / 16 % 16), Nat.digitChar (g % 16)]

/-- `IPv6Address::ToString`: the 8 groups, each in 4-digit zero-padded
hex, joined with `:` (no separator after the last group). -/
def ipv6ToString (gs : List Nat) : List Char := joinSep ':' (gs.map hex4)

/-- The lowercase hex alphabet `0-9a-f`. -/
def isLowerHexDigit (c : Char) : Bool :=
  ('0' ≤ c && c ≤ '9') || ('a' ≤ c && c ≤ 'f')

/-- Numeric value of a hex-digit string, most significant digit first. -/
def hexCharsVal (l : List Char) : Nat :=
  l.foldl (fun a c => 16 * a + (hexVal? c).getD 0) 0

theorem hexVal?_digitChar : ∀ d : Nat, d < 16 → hexVal? (Nat.digitChar d) = some d := by
  decide

theorem isLowerHexDigit_digitChar : ∀ d : Nat, d < 16 →
    isLowerHexDigit (Nat.digitChar d) = true := by
  decide

theorem lowerHex_ne_colon {c : Char} (h : isLowerHexDigit c = true) : c ≠ ':' := by
  intro hcc
  subst hcc
  exact Bool.false_ne_true ((by decide : isLowerHexDigit ':' = false) ▸ h)

theorem hexCharsVal_hex4 (g : Nat) (h : g < 65536) : hexCharsVal (hex4 g) = g := by
  have h1 := hexVal?_digitChar (g / 4096 % 16) (Nat.mod_lt _ (by norm_num))
  have h2 := hexVal?_digitChar (g / 256 % 16) (Nat.mod_lt _ (by norm_num))
  have h3 := hexVal?_digitChar (g / 16 % 16) (Nat.mod_lt _ (by norm_num))
  have h4 := hexVal?_digitChar (g % 16) (Nat.mod_lt _ (by norm_num))
  simp only [hexCharsVal, hex4, List.foldl_cons, List.foldl_nil, h1, h2, h3, h4,
    Option.getD_some]
  omega

theorem joinSep_length (sep : Char) (ps : List (List Char)) (hne : ps ≠ []) :
    (joinSep sep ps).length = (ps.map List.length).sum + ps.length - 1 := by
  induction ps with
  | nil => exact absurd rfl hne
  | cons g gs ih =>
    cases gs with
    | nil => simp [joinSep]
    | cons g2 gs2 =>
      have h2 := ih (by simp)
      simp only [joinSep, List.length_append, List.length_cons, h2, List.map_cons,
        List.sum_cons]
      omega

/-- C7: for every 8-group IPv6 value, `ToString` emits exactly 8 groups
joined by `:`, each group exactly 4 zero-padded lowercase hex digits (so
the whole string has length 39), and each group's digits denote the
group's 16-bit value. -/
theorem ipv6_toString_format (gs : List Nat) (hlen : gs.length = 8)
    (hval : ∀ g ∈ gs, g < 65536) :
    (ipv6ToString gs).length = 39 ∧
    splitSep ':' (ipv6ToString gs) = gs.map hex4 ∧
    (∀ p ∈ gs.map hex4, p.length = 4 ∧ ∀ c ∈ p, isLowerHexDigit c = true) ∧
    (∀ g ∈ gs, hexCharsVal (hex4 g) = g) := by
  have hparts : ∀ p ∈ gs.map hex4, p.length = 4 ∧ ∀ c ∈ p, isLowerHexDigit c = true := by
    intro p hp
    obtain ⟨g, hg, rfl⟩ := List.mem_map.mp hp
    refine ⟨rfl, ?_⟩
    intro c hc
    simp only [hex4, List.mem_cons, List.not_mem_nil, or_false] at hc
    rcases hc with rfl | rfl | rfl | rfl <;>
      exact isLowerHexDigit_digitChar _ (Nat.mod_lt _ (by norm_num))
  have hne : gs.map hex4 ≠ [] := by
    intro he
    rw [List.map_eq_nil_iff] at he
    rw [he] at hlen
    simp at hlen
  have hnosep : ∀ p ∈ gs.map hex4, ∀ c ∈ p, c ≠ ':' :=
    fun p hp c hc => lowerHex_ne_colon ((hparts p hp).2 c hc)
  refine ⟨?_, ?_, hparts, fun g hg => hexCharsVal_hex4 g (hval g hg)⟩
  · rw [ipv6ToString, joinSep_length ':' _ hne]
    have hrep : (gs.map hex4).map List.length = List.replicate 8 4 := by
      rw [List.eq_replicate_iff]
      refine ⟨by simp [hlen], ?_⟩
      intro x hx
      obtain ⟨p, hp, rfl⟩ := List.mem_map.mp hx
      exact (hparts p hp).1
    rw [hrep]
    simp [hlen]
  · exact splitSep_joinSep ':' _ hne hnosep

/-- The 8 groups of the spec scenario address
`2001:0db8:0000:0000:0000:ff00:0042:8329`. -/
def c7Groups : List Nat := [8193, 3512, 0, 0, 0, 65280, 66, 33577]

/-- C7 witness: the format theorem instantiated at the spec's scenario
address. -/
theorem ipv6_toString_format_witness :
    c7Groups.length = 8 ∧ (∀ g ∈ c7Groups, g < 65536) ∧
    ((ipv6ToString c7Groups).length = 39 ∧
     splitSep ':' (ipv6ToString c7Groups) = c7Groups.map hex4 ∧
     (∀ p ∈ c7Groups.map hex4, p.length = 4 ∧ ∀ c ∈ p, isLowerHexDigit c = true) ∧
     (∀ g ∈ c7Groups, hexCharsVal (hex4 g) = g)) :=
  ⟨by decide, by decide, ipv6_toString_format c7Groups (by decide) (by decide)⟩

/-! ### IPv6 and IPv4 binary conversion through raw pointers -/

/-- `IPv6Address::ToBinary(uint8_t *)`: for each group, `memcpy` the
`uint16_t` into `bytes[2]` and write `bytes[0]` then `bytes[1]` — on the
little-endian host the low byte comes first. -/
def ipv6ToBinaryPtr : List Nat → List Nat
  | [] => []
  | g :: gs => g % 256 :: g / 256 % 256 :: ipv6ToBinaryPtr gs

/-- `IPv6Address::SetFromBinary(const uint8_t *)`: 8 loop iterations, each
consuming two bytes and `memcpy`-ing them into a `uint16_t` (low byte
first on the little-endian host).  The first argument is the loop bound;
buffers shorter than 16 bytes would be read out of bounds by the C++ code
(undefined behaviour), so the model is only applied to 16-byte inputs. -/
def readGroupsLE : Nat → List Nat → List Nat
  | 0, _ => []
  | n + 1, b0 :: b1 :: rest => (b0 + 256 * b1) :: readGroupsLE n rest
  | _ + 1, _ => []

def ipv6SetFromBinaryPtr (b : List Nat) : List Nat :=
  readGroupsLE IPV6_ADDRESS_GROUPS_NUMBER b

/-- `IPv4Address::SetFromBinary(const uint8_t *)`: `memcpy` of exactly 4
bytes from the buffer into `_octets`. -/
def ipv4SetFromBinaryPtr (b : List Nat) : List Nat := b.take IP_ADDRESS_OCTETS

/-- `IPv4Address::ToBinary(uint8_t *)`: `memcpy` of the 4 octets out. -/
def ipv4ToBinaryPtr (oct : List Nat) : List Nat := oct.take IP_ADDRESS_OCTETS

theorem toBinary_readGroups (n : Nat) : ∀ b : List Nat, b.length = 2 * n →
    (∀ x ∈ b, x < 256) → ipv6ToBinaryPtr (readGroupsLE n b) = b := by
  induction n with
  | zero =>
    intro b hb _
    have hbnil : b = [] := List.length_eq_zero.mp (by omega)
    subst hbnil
    rfl
  | succ n ih =>
    intro b hb hlt
    cases b with
    | nil => simp at hb
    | cons b0 t =>
      cases t with
      | nil => simp at hb; omega
      | cons b1 rest =>
        have h0 : b0 < 256 := hlt b0 (by simp)
        have h1 : b1 < 256 := hlt b1 (by simp)
        have hrest : rest.length = 2 * n := by
          simp only [List.length_cons] at hb
          omega
        have hlt2 : ∀ x ∈ rest, x < 256 := fun x hx => hlt x (by simp [hx])
        have hr : readGroupsLE (n + 1) (b0 :: b1 :: rest)
            = (b0 + 256 * b1) :: readGroupsLE n rest := rfl
        have ht : ipv6ToBinaryPtr ((b0 + 256 * b1) :: readGroupsLE n rest)
            = (b0 + 256 * b1) % 256 :: (b0 + 256 * b1) / 256 % 256
              :: ipv6ToBinaryPtr (readGroupsLE n rest) := rfl
        rw [hr, ht, ih rest hrest hlt2]
        have e0 : (b0 + 256 * b1) % 256 = b0 := by omega
        have e1 : (b0 + 256 * b1) / 256 % 256 = b1 := by omega
        rw [e0, e1]

/-- C6: writing an address set from a 16-byte buffer back out through the
pointer overloads reproduces the buffer, and likewise for IPv4 with
4-byte buffers — stated as `FromBinary (ToBinary (FromBinary b)) =
FromBinary b`. -/
theorem binary_roundtrip_ptr (b6 b4 : List Nat)
    (h6 : b6.length = 16) (h6v : ∀ x ∈ b6, x < 256)
    (h4 : b4.length = 4) (h4v : ∀ x ∈ b4, x < 256) :
    ipv6SetFromBinaryPtr (ipv6ToBinaryPtr (ipv6SetFromBinaryPtr b6))
        = ipv6SetFromBinaryPtr b6 ∧
    ipv4SetFromBinaryPtr (ipv4ToBinaryPtr (ipv4SetFromBinaryPtr b4))
        = ipv4SetFromBinaryPtr b4 := by
  constructor
  · unfold ipv6SetFromBinaryPtr IPV6_ADDRESS_GROUPS_NUMBER
    rw [toBinary_readGroups 8 b6 (by omega) h6v]
  · unfold ipv4SetFromBinaryPtr ipv4ToBinaryPtr
    simp [List.take_take]

/-- The 16-byte buffer of the binary scenario in the tests. -/
def c6Buf16 : List Nat :=
  [254, 128, 0, 0, 0, 0, 0, 0, 2, 218, 255, 255, 254, 220, 0, 0]

/-- The 4-byte buffer `[0xC0, 0xA8, 0x00, 0x01]` (192.168.0.1). -/
def c6Buf4 : List Nat := [192, 168, 0, 1]

/-- C6 witness: the binary round trip at the test buffers. -/
theorem binary_roundtrip_ptr_witness :
    c6Buf16.length = 16 ∧ (∀ x ∈ c6Buf16, x < 256) ∧
    c6Buf4.length = 4 ∧ (∀ x ∈ c6Buf4, x < 256) ∧
    (ipv6SetFromBinaryPtr (ipv6ToBinaryPtr (ipv6SetFromBinaryPtr c6Buf16))
        = ipv6SetFromBinaryPtr c6Buf16 ∧
     ipv4SetFromBinaryPtr (ipv4ToBinaryPtr (ipv4SetFromBinaryPtr c6Buf4))
        = ipv4SetFromBinaryPtr c6Buf4) :=
  ⟨by decide, by decide, by decide, by decide,
    binary_roundtrip_ptr c6Buf16 c6Buf4 (by decide) (by decide) (by decide) (by decide)⟩

/-! ### The vector-returning `IPv6Address::ToBinary()` and the pointer
constructor -/

/-- Model of a `std::vector<uint8_t>`: `storage` is the heap block behind
`data()`, `sz` the vector's size.  The elements the vector presents to its
user (its `size()`, comparisons, iteration) are the first `sz` entries of
the storage. -/
structure CppByteVector where
  storage : List Nat
  sz : Nat
  deriving DecidableEq

def CppByteVector.elems (v : CppByteVector) : List Nat := v.storage.take v.sz

/-- The vector-returning `IPv6Address::ToBinary()`:
`binaryRepresentation` is default-constructed with size 0, `reserve(16)`
raises only the capacity, and the pointer overload then writes the 16
bytes through `data()` — straight into raw storage, never growing the
vector. -/
def ipv6ToBinaryVec (gs : List Nat) : CppByteVector :=
  { storage := ipv6ToBinaryPtr gs, sz := 0 }

/-- C1 (code bug): for every IPv6 address value the vector-returning
`ToBinary()` yields a vector holding 0 bytes, not 16 — `reserve` does not
change the size, so the test expecting `result.size() == 16` fails. -/
theorem ipv6_toBinaryVec_empty (gs : List Nat) :
    ((ipv6ToBinaryVec gs).elems).length = 0 := rfl

/-- `IPv6Address::IPv6Address(const uint8_t *)`: the guard compares
`sizeof(cBinaryContent) / sizeof(uint8_t)` with 16 — but `cBinaryContent`
is a POINTER, whose size on the LP64 host is 8, so the guard is false for
every input and the else branch throws the invalid-size exception. -/
def ipv6FromBinaryPtrCtor (p : Option (List Nat)) : Except IPError (List Nat) :=
  match p with
  | some bytes =>
    if SIZEOF_UINT8_PTR / SIZEOF_UINT8 = IPV6_ADDRESS_BYTE_LENGTH then
      .ok (ipv6SetFromBinaryPtr bytes)
    else .error .invalidSize
  | none => .error .nullPtr

/-- C2 (code bug): the pointer constructor throws NullPtr on null as the
claim says, but it also throws the invalid-size exception for EVERY
non-null buffer — including a valid 16-byte one — because it measures
`sizeof` of the pointer instead of the buffer. -/
theorem ipv6_fromBinaryPtr_always_invalidSize :
    ipv6FromBinaryPtrCtor none = .error .nullPtr ∧
    ipv6FromBinaryPtrCtor (some (List.replicate 16 0)) = .error .invalidSize ∧
    (∀ bytes : List Nat, ipv6FromBinaryPtrCtor (some bytes) = .error .invalidSize) :=
  ⟨rfl, rfl, fun _ => rfl⟩

/-! ### IPv4: `std::stoi` and the string constructor -/

/-- Decimal digit test. -/
def isDecDigit (c : Char) : Bool := '0' ≤ c && c ≤ '9'

/-- Value of a decimal digit character. -/
def decVal (c : Char) : Nat := c.toNat - ('0').toNat

/-- Whitespace skipped by `std::stoi`. -/
def isSpaceChar (c : Char) : Bool :=
  c = ' ' || c = '\t' || c = '\n' || c = '\r'

/-- Numeric value of a decimal digit string, most significant digit
first. -/
def charsVal (l : List Char) : Nat :=
  l.foldl (fun a c => 10 * a + decVal c) 0

/-- `INT_MAX` of the 32-bit `int` that `std::stoi` returns. -/
def INT_MAX : Int := 2147483647

/-- `INT_MIN` of the 32-bit `int`. -/
def INT_MIN : Int := -2147483648

/-- Digit phase of `std::stoi`: the longest decimal-digit prefix is the
number; no digits means `std::invalid_argument`, a value outside `int`
means `std::out_of_range` (both modelled as `none`). -/
def stoiDigits (r : List Char) (neg : Bool) : Option Int :=
  let ds := r.takeWhile isDecDigit
  if ds.isEmpty then none
  else
    let v : Int := (charsVal ds : Int)
    let iv : Int := if neg then -v else v
    if iv < INT_MIN ∨ INT_MAX < iv then none else some iv

/-- `std::stoi` (base 10): skip whitespace, optional sign, then the digit
run. -/
def stoiInt? (s : List Char) : Option Int :=
  match s.dropWhile isSpaceChar with
  | [] => none
  | c :: r =>
    if c = '+' then stoiDigits r false
    else if c = '-' then stoiDigits r true
    else stoiDigits (c :: r) false

/-- The `int` → `uint8_t` conversion performed by
`_octets[byteCount] = std::stoi(byteStr)`: reduction modulo 256. -/
def toByte (x : Int) : Nat := (x % 256).toNat

/-- Loop of `IPv4Address::IPv4Address(const std::string &)`: walk the
characters; on `.` convert the accumulated segment with `std::stoi` and
store it at index `byteCount` (recorded in the `stores` trace — the C++
code does NOT bound `byteCount`, so traced indices may exceed 3), reset
the segment and advance `byteCount`; any other character is appended to
the segment.  After the loop the trailing segment is stored the same way.
Returns the performed stores and whether the constructor completed
(`false` = a `std::stoi` call threw first). -/
def ipv4CtorLoop : List Char → List Char → Nat → List (Nat × Nat) →
    List (Nat × Nat) × Bool
  | [], byteStr, byteCount, stores =>
    match stoiInt? byteStr with
    | some v => (stores ++ [(byteCount, toByte v)], true)
    | none => (stores, false)
  | c :: rest, byteStr, byteCount, stores =>
    if c = '.' then
      match stoiInt? byteStr with
      | some v => ipv4CtorLoop rest [] (byteCount + 1) (stores ++ [(byteCount, toByte v)])
      | none => (stores, false)
    else
      ipv4CtorLoop rest (byteStr ++ [c]) byteCount stores

/-- Run of the IPv4 string constructor: empty input throws immediately
(no stores); otherwise the loop runs from an empty segment, index 0 and an
empty trace. -/
def ipv4CtorRun (s : List Char) : List (Nat × Nat) × Bool :=
  if s.isEmpty then ([], false) else ipv4CtorLoop s [] 0 []

/-- The octet-array stores performed by the IPv4 string constructor. -/
def ipv4CtorStores (s : List Char) : List (Nat × Nat) := (ipv4CtorRun s).1

/-- Final octet array of the IPv4 string constructor: the stores applied
in order to the zero-initialised `uint8_t _octets[4]` (`List.set` ignores
indices ≥ 4; the C++ code would instead write out of bounds there — the
in-bounds cases coincide). -/
def applyStores (stores : List (Nat × Nat)) (init : List Nat) : List Nat :=
  stores.foldl (fun a p => a.set p.1 p.2) init

/-- `IPv4Address::IPv4Address(const std::string &)` as a function to the
observable octets (`none` = constructor threw). -/
def ipv4FromString (s : List Char) : Option (List Nat) :=
  match ipv4CtorRun s with
  | (stores, true) => some (applyStores stores [0, 0, 0, 0])
  | (_, false) => none

/-- Decimal rendering of one octet by `std::to_string`. -/
def natDecimalChars (n : Nat) : List Char :=
  if n = 0 then ['0'] else ((Nat.digits 10 n).map Nat.digitChar).reverse

/-- `IPv4Address::ToString`: the four octets in decimal, joined by `.`
(no separator after the fourth). -/
def ipv4ToString (oct : List Nat) : List Char :=
  joinSep '.' (oct.map natDecimalChars)

/-! ### IPv4 binary constructors over `std::vector` -/

/-- `IPv4Address::IPv4Address(const std::vector<uint8_t> &)`: empty
vector → empty-vector exception; size ≠ 4 → invalid-size exception;
otherwise `memcpy` of the 4 bytes. -/
def ipv4FromBinaryVec (v : List Nat) : Except IPError (List Nat) :=
  if ¬ v.isEmpty then
    if v.length ≠ IP_ADDRESS_OCTETS then .error .invalidSize
    else .ok (v.take IP_ADDRESS_OCTETS)
  else .error .emptyVector

/-- `IPv4Address::SetFromBinary(const std::vector<uint8_t> &)`: only
emptiness is checked; any non-empty vector is `memcpy`-ed from — 4 bytes,
regardless of the vector's size.  (For sizes 1..3 the C++ `memcpy` reads
past the vector's buffer — undefined behaviour; the model is only applied
to sizes ≥ 4, where it reads the first 4 bytes.) -/
def ipv4SetFromBinaryVec (v : List Nat) : Except IPError (List Nat) :=
  if v.isEmpty then .error .emptyVector
  else .ok (v.take IP_ADDRESS_OCTETS)

/-! ### `IPv4Address::operator=` -/

/-- The byte offsets (relative to the start of each object's `_octets`
array) touched by `memcpy(this->_octets, cIp._octets, IP_ADDRESS_MAX_LENGTH)`
in `IPv4Address::operator=`: the copy length is the 15-character string
constant, not the 4-byte array length. -/
def ipv4AssignTouchedOffsets : List Nat := List.range IP_ADDRESS_MAX_LENGTH

/-! ### Arithmetic of decimal renderings -/

theorem charsVal_append_digit (xs : List Char) (c : Char) :
    charsVal (xs ++ [c]) = 10 * charsVal xs + decVal c := by
  simp [charsVal, List.foldl_append]

theorem decVal_digitChar : ∀ d : Nat, d < 10 → decVal (Nat.digitChar d) = d := by
  decide

theorem isDecDigit_digitChar : ∀ d : Nat, d < 10 → isDecDigit (Nat.digitChar d) = true := by
  decide

theorem charsVal_rawDec (n : Nat) :
    charsVal (((Nat.digits 10 n).map Nat.digitChar).reverse) = n := by
  induction n using Nat.strong_induction_on with
  | _ n ih =>
    rcases Nat.eq_zero_or_pos n with rfl | hpos
    · simp [charsVal]
    · rw [Nat.digits_def' (by norm_num : 1 < 10) hpos]
      simp only [List.map_cons, List.reverse_cons]
      rw [charsVal_append_digit,
        ih (n / 10) (Nat.div_lt_self hpos (by norm_num)),
        decVal_digitChar (n % 10) (Nat.mod_lt n (by norm_num))]
      omega

theorem charsVal_natDecimalChars (n : Nat) : charsVal (natDecimalChars n) = n := by
  unfold natDecimalChars
  split
  · subst ‹n = 0›
    decide
  · exact charsVal_rawDec n

theorem natDecimalChars_ne_nil (n : Nat) : natDecimalChars n ≠ [] := by
  unfold natDecimalChars
  split
  · simp
  · have hd : Nat.digits 10 n ≠ [] := Nat.digits_ne_nil_iff_ne_zero.mpr ‹¬ n = 0›
    simpa using hd

theorem natDecimalChars_all_digits (n : Nat) :
    ∀ c ∈ natDecimalChars n, isDecDigit c = true := by
  unfold natDecimalChars
  split
  · intro c hc
    simp only [List.mem_singleton] at hc
    subst hc
    decide
  · intro c hc
    simp only [List.mem_reverse, List.mem_map] at hc
    obtain ⟨d, hd, rfl⟩ := hc
    exact isDecDigit_digitChar d (Nat.digits_lt_base (by norm_num) hd)

/-! ### `std::stoi` on pure digit strings -/

theorem decDigit_not_space {c : Char} (h : isDecDigit c = true) :
    isSpaceChar c = false := by
  by_contra hsp
  rw [Bool.not_eq_false] at hsp
  simp only [isSpaceChar, Bool.or_eq_true, decide_eq_true_eq] at hsp
  rcases hsp with ((rfl | rfl) | rfl) | rfl <;> exact absurd h (by decide)

theorem decDigit_ne_dot {c : Char} (h : isDecDigit c = true) : c ≠ '.' := by
  rintro rfl
  exact absurd h (by decide)

theorem decDigit_ne_plus {c : Char} (h : isDecDigit c = true) : c ≠ '+' := by
  rintro rfl
  exact absurd h (by decide)

theorem decDigit_ne_minus {c : Char} (h : isDecDigit c = true) : c ≠ '-' := by
  rintro rfl
  exact absurd h (by decide)

theorem takeWhile_all {p : Char → Bool} (l : List Char) (h : ∀ c ∈ l, p c = true) :
    l.takeWhile p = l := by
  induction l with
  | nil => rfl
  | cons c r ih =>
    simp [List.takeWhile_cons, h c (by simp), ih (fun x hx => h x (by simp [hx]))]

theorem stoiInt?_digits (s : List Char) (hne : s ≠ [])
    (hd : ∀ c ∈ s, isDecDigit c = true) (hv : (charsVal s : Int) ≤ INT_MAX) :
    stoiInt? s = some ((charsVal s : Int)) := by
  cases s with
  | nil => exact absurd rfl hne
  | cons c r =>
    have hc : isDecDigit c = true := hd c (by simp)
    have hdrop : (c :: r).dropWhile isSpaceChar = c :: r := by
      simp [List.dropWhile_cons, decDigit_not_space hc]
    simp only [stoiInt?, hdrop]
    rw [if_neg (decDigit_ne_plus hc), if_neg (decDigit_ne_minus hc)]
    unfold stoiDigits
    rw [takeWhile_all _ hd]
    simp only [List.isEmpty_cons, Bool.false_eq_true, if_false]
    rw [if_neg]
    have hge : (0 : Int) ≤ (charsVal (c :: r) : Int) := Int.ofNat_nonneg _
    simp only [INT_MAX] at hv
    simp only [Bool.false_eq_true, if_false, INT_MIN, INT_MAX]
    omega

/-! ### The constructor loop, one segment at a time -/

theorem ipv4CtorLoop_dot (seg rest byteStr : List Char) (bc : Nat)
    (st : List (Nat × Nat)) (hseg : ∀ c ∈ seg, c ≠ '.') :
    ipv4CtorLoop (seg ++ '.' :: rest) byteStr bc st =
      match stoiInt? (byteStr ++ seg) with
      | some v => ipv4CtorLoop rest [] (bc + 1) (st ++ [(bc, toByte v)])
      | none => (st, false) := by
  induction seg generalizing byteStr with
  | nil =>
    simp [ipv4CtorLoop]
  | cons c seg2 ih =>
    have hc : c ≠ '.' := hseg c (by simp)
    have h2 : ∀ x ∈ seg2, x ≠ '.' := fun x hx => hseg x (by simp [hx])
    have hstep : ipv4CtorLoop (c :: (seg2 ++ '.' :: rest)) byteStr bc st
        = ipv4CtorLoop (seg2 ++ '.' :: rest) (byteStr ++ [c]) bc st := by
      simp [ipv4CtorLoop, hc]
    rw [List.cons_append, hstep, ih _ h2]
    simp [List.append_assoc]

theorem ipv4CtorLoop_last (seg byteStr : List Char) (bc : Nat)
    (st : List (Nat × Nat)) (hseg : ∀ c ∈ seg, c ≠ '.') :
    ipv4CtorLoop seg byteStr bc st =
      match stoiInt? (byteStr ++ seg) with
      | some v => (st ++ [(bc, toByte v)], true)
      | none => (st, false) := by
  induction seg generalizing byteStr with
  | nil =>
    simp [ipv4CtorLoop]
  | cons c seg2 ih =>
    have hc : c ≠ '.' := hseg c (by simp)
    have h2 : ∀ x ∈ seg2, x ≠ '.' := fun x hx => hseg x (by simp [hx])
    have hstep : ipv4CtorLoop (c :: seg2) byteStr bc st
        = ipv4CtorLoop seg2 (byteStr ++ [c]) bc st := by
      simp [ipv4CtorLoop, hc]
    rw [hstep, ih _ h2]
    simp [List.append_assoc]

theorem toByte_ofNat (n : Nat) : toByte (n : Int) = n % 256 := by
  unfold toByte
  omega

/-- A dotted-decimal segment that `std::stoi` converts: non-empty, all
decimal digits, value within `int` range. -/
def DecSegment (s : List Char) : Prop :=
  s ≠ [] ∧ (∀ c ∈ s, isDecDigit c = true) ∧ (charsVal s : Int) ≤ INT_MAX

instance (s : List Char) : Decidable (DecSegment s) := by
  unfold DecSegment; infer_instance

/-- Core run of the IPv4 string constructor on a well-formed 4-segment
dotted string: it stores the four segment values, each reduced modulo 256
by the `int` → `uint8_t` conversion, at octet indices 0..3. -/
theorem ipv4_parse_four (s0 s1 s2 s3 : List Char)
    (h0 : DecSegment s0) (h1 : DecSegment s1) (h2 : DecSegment s2) (h3 : DecSegment s3) :
    ipv4FromString (joinSep '.' [s0, s1, s2, s3]) =
      some [charsVal s0 % 256, charsVal s1 % 256, charsVal s2 % 256, charsVal s3 % 256] := by
  obtain ⟨h0a, h0b, h0c⟩ := h0
  obtain ⟨h1a, h1b, h1c⟩ := h1
  obtain ⟨h2a, h2b, h2c⟩ := h2
  obtain ⟨h3a, h3b, h3c⟩ := h3
  have hne0 : ∀ c ∈ s0, c ≠ '.' := fun c hc => decDigit_ne_dot (h0b c hc)
  have hne1 : ∀ c ∈ s1, c ≠ '.' := fun c hc => decDigit_ne_dot (h1b c hc)
  have hne2 : ∀ c ∈ s2, c ≠ '.' := fun c hc => decDigit_ne_dot (h2b c hc)
  have hne3 : ∀ c ∈ s3, c ≠ '.' := fun c hc => decDigit_ne_dot (h3b c hc)
  have hj : joinSep '.' [s0, s1, s2, s3]
      = s0 ++ '.' :: (s1 ++ '.' :: (s2 ++ '.' :: s3)) := rfl
  have hnil : (s0 ++ '.' :: (s1 ++ '.' :: (s2 ++ '.' :: s3))).isEmpty = false := by
    cases s0 with
    | nil => exact absurd rfl h0a
    | cons c t => rfl
  unfold ipv4FromString ipv4CtorRun
  rw [hj, hnil]
  simp only [Bool.false_eq_true, if_false]
  rw [ipv4CtorLoop_dot s0 _ [] 0 [] hne0, List.nil_append,
    stoiInt?_digits s0 h0a h0b h0c]
  simp only []
  rw [ipv4CtorLoop_dot s1 _ [] 1 _ hne1, List.nil_append,
    stoiInt?_digits s1 h1a h1b h1c]
  simp only []
  rw [ipv4CtorLoop_dot s2 _ [] 2 _ hne2, List.nil_append,
    stoiInt?_digits s2 h2a h2b h2c]
  simp only []
  rw [ipv4CtorLoop_last s3 [] 3 _ hne3, List.nil_append,
    stoiInt?_digits s3 h3a h3b h3c]
  simp only []
  rw [toByte_ofNat, toByte_ofNat, toByte_ofNat, toByte_ofNat]
  simp [applyStores, List.set]

/-! ### Claim theorems over the IPv4 string constructor -/

/-- C8: for every 4-segment dotted input whose segments `std::stoi`
converts to a nonnegative integer, the constructor stores each segment's
value reduced modulo 256 (so a segment `256` stores 0); no segment value
above 255 is rejected. -/
theorem ipv4_parse_mod256 (s0 s1 s2 s3 : List Char)
    (h0 : DecSegment s0) (h1 : DecSegment s1) (h2 : DecSegment s2) (h3 : DecSegment s3) :
    ipv4FromString (joinSep '.' [s0, s1, s2, s3]) =
      some [charsVal s0 % 256, charsVal s1 % 256, charsVal s2 % 256, charsVal s3 % 256] :=
  ipv4_parse_four s0 s1 s2 s3 h0 h1 h2 h3

/-- C8 witness: `256.1.2.300` is accepted and stores `[0, 1, 2, 44]`. -/
theorem ipv4_parse_mod256_witness :
    DecSegment ['2', '5', '6'] ∧ DecSegment ['1'] ∧ DecSegment ['2'] ∧
    DecSegment ['3', '0', '0'] ∧
    (ipv4FromString (joinSep '.' [['2', '5', '6'], ['1'], ['2'], ['3', '0', '0']]) =
      some [charsVal ['2', '5', '6'] % 256, charsVal ['1'] % 256, charsVal ['2'] % 256,
        charsVal ['3', '0', '0'] % 256]) ∧
    charsVal ['2', '5', '6'] % 256 = 0 ∧ charsVal ['3', '0', '0'] % 256 = 44 :=
  ⟨by decide, by decide, by decide, by decide,
    ipv4_parse_mod256 _ _ _ _ (by decide) (by decide) (by decide) (by decide),
    by decide, by decide⟩

/-- C5: parsing a valid 4-octet dotted string yields the segment values as
octets, and parsing the formatted result gives the same parse:
`Parse (Format (Parse x)) = Parse x`. -/
theorem ipv4_parse_format_roundtrip (s0 s1 s2 s3 : List Char)
    (h0 : DecSegment s0) (h1 : DecSegment s1) (h2 : DecSegment s2) (h3 : DecSegment s3)
    (hb0 : charsVal s0 ≤ 255) (hb1 : charsVal s1 ≤ 255)
    (hb2 : charsVal s2 ≤ 255) (hb3 : charsVal s3 ≤ 255) :
    ipv4FromString (joinSep '.' [s0, s1, s2, s3]) =
      some [charsVal s0, charsVal s1, charsVal s2, charsVal s3] ∧
    ipv4FromString (ipv4ToString [charsVal s0, charsVal s1, charsVal s2, charsVal s3]) =
      ipv4FromString (joinSep '.' [s0, s1, s2, s3]) := by
  have hparse := ipv4_parse_four s0 s1 s2 s3 h0 h1 h2 h3
  have e0 : charsVal s0 % 256 = charsVal s0 := Nat.mod_eq_of_lt (by omega)
  have e1 : charsVal s1 % 256 = charsVal s1 := Nat.mod_eq_of_lt (by omega)
  have e2 : charsVal s2 % 256 = charsVal s2 := Nat.mod_eq_of_lt (by omega)
  have e3 : charsVal s3 % 256 = charsVal s3 := Nat.mod_eq_of_lt (by omega)
  have hmain : ipv4FromString (joinSep '.' [s0, s1, s2, s3]) =
      some [charsVal s0, charsVal s1, charsVal s2, charsVal s3] := by
    rw [hparse, e0, e1, e2, e3]
  refine ⟨hmain, ?_⟩
  have hts : ipv4ToString [charsVal s0, charsVal s1, charsVal s2, charsVal s3]
      = joinSep '.' [natDecimalChars (charsVal s0), natDecimalChars (charsVal s1),
          natDecimalChars (charsVal s2), natDecimalChars (charsVal s3)] := rfl
  have hseg : ∀ n : Nat, n ≤ 255 → DecSegment (natDecimalChars n) := by
    intro n hn
    refine ⟨natDecimalChars_ne_nil n, natDecimalChars_all_digits n, ?_⟩
    rw [charsVal_natDecimalChars]
    unfold INT_MAX
    omega
  rw [hts, ipv4_parse_four _ _ _ _ (hseg _ hb0) (hseg _ hb1) (hseg _ hb2) (hseg _ hb3),
    hmain, charsVal_natDecimalChars, charsVal_natDecimalChars, charsVal_natDecimalChars,
    charsVal_natDecimalChars, e0, e1, e2, e3]

/-- C5 witness: the scenario `192.168.0.1` — parsed octets
`[192, 168, 0, 1]` and a clean round trip. -/
theorem ipv4_parse_format_roundtrip_witness :
    DecSegment ['1', '9', '2'] ∧ DecSegment ['1', '6', '8'] ∧
    DecSegment ['0'] ∧ DecSegment ['1'] ∧
    charsVal ['1', '9', '2'] ≤ 255 ∧ charsVal ['1', '6', '8'] ≤ 255 ∧
    charsVal ['0'] ≤ 255 ∧ charsVal ['1'] ≤ 255 ∧
    (ipv4FromString (joinSep '.' [['1', '9', '2'], ['1', '6', '8'], ['0'], ['1']]) =
       some [charsVal ['1', '9', '2'], charsVal ['1', '6', '8'],
         charsVal ['0'], charsVal ['1']] ∧
     ipv4FromString (ipv4ToString [charsVal ['1', '9', '2'], charsVal ['1', '6', '8'],
         charsVal ['0'], charsVal ['1']]) =
       ipv4FromString (joinSep '.' [['1', '9', '2'], ['1', '6', '8'], ['0'], ['1']])) ∧
    charsVal ['1', '9', '2'] = 192 ∧ charsVal ['1', '6', '8'] = 168 ∧
    charsVal ['0'] = 0 ∧ charsVal ['1'] = 1 :=
  ⟨by decide, by decide, by decide, by decide, by decide, by decide, by decide, by decide,
    ipv4_parse_format_roundtrip _ _ _ _ (by decide) (by decide) (by decide) (by decide)
      (by decide) (by decide) (by decide) (by decide),
    by decide, by decide, by decide, by decide⟩

/-! ### Claim theorems over the IPv4 binary vector interface -/

/-- C3 counterexample: a 5-byte vector is NOT rejected by the vector
overload of `SetFromBinary` — it succeeds and stores the first 4 bytes,
although the claim demands an invalid-size failure. -/
theorem ipv4_setFromBinaryVec_size5_accepted :
    ipv4SetFromBinaryVec [1, 2, 3, 4, 5] = .ok [1, 2, 3, 4] ∧
      ([1, 2, 3, 4, 5] : List Nat).length ≠ IP_ADDRESS_OCTETS :=
  ⟨rfl, by decide⟩

/-- C3 (amended): every non-empty vector of size ≠ 4 makes the vector
CONSTRUCTOR fail with the invalid-size error, but the vector
`SetFromBinary` checks only emptiness: with at least 4 bytes it succeeds,
copying the first 4 (with 1..3 bytes the `memcpy` reads out of bounds). -/
theorem ipv4_binary_size_validation_amended (v : List Nat) (hne : v ≠ [])
    (hsz : v.length ≠ IP_ADDRESS_OCTETS) :
    ipv4FromBinaryVec v = .error .invalidSize ∧
    (IP_ADDRESS_OCTETS ≤ v.length →
      ipv4SetFromBinaryVec v = .ok (v.take IP_ADDRESS_OCTETS)) := by
  have hempty : v.isEmpty = false := by
    cases v with
    | nil => exact absurd rfl hne
    | cons x t => rfl
  constructor
  · simp [ipv4FromBinaryVec, hempty, hsz]
  · intro hge
    simp [ipv4SetFromBinaryVec, hempty]

/-- C3 witness: the amended statement at the 5-byte vector
`[1, 2, 3, 4, 5]`. -/
theorem ipv4_binary_size_validation_amended_witness :
    ([1, 2, 3, 4, 5] : List Nat) ≠ [] ∧
    ([1, 2, 3, 4, 5] : List Nat).length ≠ IP_ADDRESS_OCTETS ∧
    (ipv4FromBinaryVec [1, 2, 3, 4, 5] = .error .invalidSize ∧
     (IP_ADDRESS_OCTETS ≤ ([1, 2, 3, 4, 5] : List Nat).length →
       ipv4SetFromBinaryVec [1, 2, 3, 4, 5]
         = .ok (([1, 2, 3, 4, 5] : List Nat).take IP_ADDRESS_OCTETS))) :=
  ⟨by decide, by decide,
    ipv4_binary_size_validation_amended [1, 2, 3, 4, 5] (by decide) (by decide)⟩

/-! ### Claim theorems about memory safety of `operator=` and the string
constructor -/

/-- C9 (code bug): `IPv4Address::operator=` copies
`IP_ADDRESS_MAX_LENGTH` = 15 bytes — the dotted-string length constant,
not the 4-byte array length — so it reads and writes byte offsets 4..14
beyond both objects' `_octets[4]` arrays. -/
theorem ipv4_assign_copies_beyond_octets :
    IP_ADDRESS_MAX_LENGTH = 15 ∧
    IP_ADDRESS_OCTETS ∈ ipv4AssignTouchedOffsets ∧
    ¬ ∀ i ∈ ipv4AssignTouchedOffsets, i < IP_ADDRESS_OCTETS := by
  decide

/-- The dotted string `1.2.3.4.5` with five segments. -/
def c10Input : List Char := ['1', '.', '2', '.', '3', '.', '4', '.', '5']

/-- C10 (code bug): on `1.2.3.4.5` the IPv4 string constructor performs
the store trace `[(0,1), (1,2), (2,3), (3,4), (4,5)]`; the final store is
at octet index 4, one past the end of the 4-byte `_octets` array. -/
theorem ipv4_ctor_store_out_of_bounds :
    ipv4CtorStores c10Input = [(0, 1), (1, 2), (2, 3), (3, 4), (4, 5)] ∧
    ∃ p ∈ ipv4CtorStores c10Input, IP_ADDRESS_OCTETS ≤ p.1 := by
  refine ⟨rfl, ?_⟩
  decide

end EthernetParameter
